import Mathlib

/-!
Verification of the leaderboard ranking engine of the deadeye-aim-trainer
repository (`src/api/test-ranking.js`, final handler revision).

The backing store is an Upstash Redis instance driven through its REST
protocol.  We model the store state explicitly (one sorted set per
`ranking:<mode>` key, one string value per `player:<mode>:<name>` key) and
translate the handler's GET (fetch rankings), POST (submit score) and
DELETE-with-resetAll branches into pure functions on that state.

Sorted-set members are strings in Redis.  We classify the member strings
that occur in this system as an inductive type `Member` together with the
serialization `Member.serialize` that produces the actual string
(`JSON.stringify` of the corresponding JavaScript value, or the raw string
for legacy members).  Store operations identify members by their
serialization and order equal-score members lexicographically by their
serialization, exactly as Redis orders equal-score members by member
string.

The model takes the handler past its field validation: `submitScore`
receives the already-coerced numeric fields (`parseInt(score)`,
`parseFloat(accuracy)` restricted to integral values, `parseInt(efficiency)`)
and the date stamp (`new Date().toLocaleDateString('ja-JP')`) as an explicit
argument, since the claims under study do not concern input validation or
clock reading.
-/

/-- One full score record, the JavaScript object
`scoreData = \x7bname, score, accuracy, efficiency, date\x7d` built by the POST
branch.  `accuracy` is informational only and is modelled at integral
values. -/
structure ScoreData where
  name : String
  score : Int
  accuracy : Int
  efficiency : Int
  date : String
deriving DecidableEq, Repr

/-- A sorted-set member string, classified.  `data` members are
`JSON.stringify(scoreData)` strings (inserted by the POST branch), `reduced`
members are `JSON.stringify(\x7bname, efficiency\x7d)` strings (built by the
DELETE/PUT branches), and `legacy` members are plain strings that are not
valid JSON and not numeric (the pre-JSON data format). -/
inductive Member where
  | data (d : ScoreData)
  | reduced (name : String) (efficiency : Int)
  | legacy (s : String)
deriving DecidableEq, Repr

/-- JSON string escaping for the characters that `JSON.stringify` must
escape in the names and dates used here. -/
def escChar (c : Char) : String :=
  if c = '"' then "\\\"" else if c = '\\' then "\\\\" else String.singleton c

/-- Escape a whole string for embedding in a JSON string literal. -/
def jsonEscape (s : String) : String := String.join (s.data.map escChar)

/-- The member string actually stored in the Redis sorted set:
`JSON.stringify` of the member's JavaScript value (field order as written in
the source), or the raw string itself for legacy members. -/
def Member.serialize : Member → String
  | .data d =>
      "\x7b\"name\":\"" ++ jsonEscape d.name ++ "\",\"score\":" ++ toString d.score ++
      ",\"accuracy\":" ++ toString d.accuracy ++ ",\"efficiency\":" ++ toString d.efficiency ++
      ",\"date\":\"" ++ jsonEscape d.date ++ "\"\x7d"
  | .reduced n e =>
      "\x7b\"name\":\"" ++ jsonEscape n ++ "\",\"efficiency\":" ++ toString e ++ "\x7d"
  | .legacy s => s

/-- A Redis sorted set: a list of (member, score) pairs.  The store keeps it
ordered by ascending score, with equal scores ordered lexicographically by
member string; all operations below preserve that order. -/
abbrev Zset := List (Member × Int)

/-- Lexicographic comparison of character lists by code point (for the
member strings occurring here this coincides with Redis's byte-wise
comparison of the UTF-8 encodings, since UTF-8 preserves code-point
order). -/
def charListLt : List Char → List Char → Bool
  | [], [] => false
  | [], _ :: _ => true
  | _ :: _, [] => false
  | a :: as, b :: bs =>
    if a.toNat < b.toNat then true
    else if b.toNat < a.toNat then false
    else charListLt as bs

/-- Lexicographic order on strings, as Redis orders equal-score members. -/
def strLt (s t : String) : Prop := charListLt s.data t.data = true

instance (s t : String) : Decidable (strLt s t) := by
  unfold strLt; infer_instance

/-- Strict ordering of sorted-set elements: ascending score, ties broken by
lexicographic order of the member strings (Redis's ordering of a sorted
set). -/
def zkeyLt (a b : Member × Int) : Prop :=
  a.2 < b.2 ∨ (a.2 = b.2 ∧ strLt a.1.serialize b.1.serialize)

instance (a b : Member × Int) : Decidable (zkeyLt a b) := by
  unfold zkeyLt; infer_instance

/-- The sorted-set order invariant. -/
def ZSorted (z : Zset) : Prop := List.Pairwise zkeyLt z

instance (z : Zset) : Decidable (ZSorted z) := by
  unfold ZSorted; infer_instance

/-- ZREM: remove the member with the given member string (Redis identifies
members by string equality). -/
def zrem (z : Zset) (m : Member) : Zset :=
  z.filter (fun p => decide (p.1.serialize ≠ m.serialize))

/-- Insert an element in front of the first element strictly greater in the
sorted-set order. -/
def zinsert (p : Member × Int) : Zset → Zset
  | [] => [p]
  | q :: t => if zkeyLt p q then p :: q :: t else q :: zinsert p t

/-- ZADD: update-or-insert the member with the given score. -/
def zadd (z : Zset) (s : Int) (m : Member) : Zset := zinsert (m, s) (zrem z m)

/-- ZCARD: number of members. -/
def zcard (z : Zset) : Nat := z.length

/-- Rank lookup in descending order on a list: position of the first element
whose member string matches. -/
def revIdxOf (m : Member) : Zset → Option Nat
  | [] => none
  | p :: t => if p.1.serialize = m.serialize then some 0 else (revIdxOf m t).map (· + 1)

/-- ZREVRANK: 0-based rank of the member in descending score order, `none`
when the member is not in the set. -/
def zrevrank (z : Zset) (m : Member) : Option Nat := revIdxOf m z.reverse

/-- Worker for ZREMRANGEBYRANK: walk the ascending list with its 0-based
index, dropping the elements whose index lies in `[s, e]`. -/
def zremrangeGo (s e : Int) : Nat → Zset → Zset
  | _, [] => []
  | i, p :: t =>
    if s ≤ (i : Int) ∧ (i : Int) ≤ e then zremrangeGo s e (i + 1) t
    else p :: zremrangeGo s e (i + 1) t

/-- ZREMRANGEBYRANK: remove the elements whose 0-based ascending rank lies
between `start` and `stop`; negative indexes count from the end (`-1` is the
last, i.e. highest-scoring, element). -/
def zremrangebyrank (z : Zset) (start stop : Int) : Zset :=
  zremrangeGo (if start < 0 then (z.length : Int) + start else start)
    (if stop < 0 then (z.length : Int) + stop else stop) 0 z

/-- The value found under a `player:<mode>:<name>` key, classified by how
the POST branch's recovery code reacts to it: a serialized full entry
(parses, `efficiency` present), a JSON value without an `efficiency` field,
or a string that is not valid JSON (`JSON.parse` throws). -/
inductive StoredVal where
  | ent (d : ScoreData)
  | noEff (s : String)
  | malformed (s : String)
deriving DecidableEq, Repr

/-- Association-list lookup by key (first binding wins). -/
def assocGet {α : Type} : List (String × α) → String → Option α
  | [], _ => none
  | p :: t, k => if p.1 = k then some p.2 else assocGet t k

/-- Remove every binding for a key from an association list. -/
def assocErase {α : Type} : List (String × α) → String → List (String × α)
  | [], _ => []
  | p :: t, k => if p.1 = k then assocErase t k else p :: assocErase t k

/-- The backing store: the sorted sets (one per `ranking:<mode>` key that
exists) and the string keyspace (the `player:<mode>:<name>` keys). -/
structure Store where
  zsets : List (String × Zset)
  kv : List (String × StoredVal)
deriving DecidableEq, Repr

/-- The store with no keys at all. -/
def emptyStore : Store := Store.mk [] []

/-- The sorted set stored under a key, when the key exists. -/
def zGet? (st : Store) (k : String) : Option Zset := assocGet st.zsets k

/-- The sorted set under a key; a missing key behaves as the empty set. -/
def getZ (st : Store) (k : String) : Zset := (zGet? st k).getD []

/-- Write back a sorted set.  Redis removes a sorted-set key as soon as the
set becomes empty, so an empty set erases the key. -/
def setZ (st : Store) (k : String) (z : Zset) : Store :=
  if z = [] then Store.mk (assocErase st.zsets k) st.kv
  else Store.mk ((k, z) :: assocErase st.zsets k) st.kv

/-- DEL of a sorted-set key. -/
def delZ (st : Store) (k : String) : Store := Store.mk (assocErase st.zsets k) st.kv

/-- EXISTS of a sorted-set key. -/
def zsetExists (st : Store) (k : String) : Bool := (zGet? st k).isSome

/-- GET of a string key. -/
def kvGet (st : Store) (k : String) : Option StoredVal := assocGet st.kv k

/-- SET of a string key. -/
def kvSet (st : Store) (k : String) (v : StoredVal) : Store :=
  Store.mk st.zsets ((k, v) :: assocErase st.kv k)

/-- The `ranking:<mode>` key of a mode's sorted collection. -/
def rankingKey (mode : String) : String := "ranking:" ++ mode

/-- The `player:<mode>:<name>` key of a player's best entry. -/
def playerKey (mode name : String) : String := "player:" ++ mode ++ ":" ++ name

/-- The `scoreData` object the POST branch builds for an accepted
submission. -/
def mkScoreData (name : String) (score accuracy efficiency : Int) (date : String) : ScoreData :=
  ScoreData.mk name score accuracy efficiency date

/-- The result the POST branch reports: `updated` and, on an accepted
submission, the 1-based rank (the rejection response carries no rank). -/
structure SubmitResult where
  updated : Bool
  rank : Option Int
deriving DecidableEq, Repr

/-- The trim step of the POST branch: `ZCARD`, and when the count exceeds
50, `ZREMRANGEBYRANK key 50 -1`. -/
def ztrim (z : Zset) : Zset :=
  if 50 < zcard z then zremrangebyrank z 50 (-1) else z

/-- The acceptance tail of the POST branch, reached when no prior best entry
blocks the submission (after the optional ZREM of a prior entry): build
`scoreData`, `ZADD` it under its efficiency, `SET` the player-best key, trim
past rank 50, and `ZREVRANK` the fresh member for the reported rank
(sentinel 51 when the lookup finds nothing). -/
def submitAccept (st : Store) (mode name : String) (score accuracy efficiency : Int)
    (date : String) : SubmitResult × Store :=
  let key := rankingKey mode
  let pk := playerKey mode name
  let sd := mkScoreData name score accuracy efficiency date
  let st1 := setZ st key (zadd (getZ st key) efficiency (Member.data sd))
  let st2 := kvSet st1 pk (StoredVal.ent sd)
  let st3 := setZ st2 key (ztrim (getZ st2 key))
  let rank : Int :=
    match zrevrank (getZ st3 key) (Member.data sd) with
    | some n => (n : Int) + 1
    | none => 51
  (SubmitResult.mk true (some rank), st3)

/-- The POST branch after field validation: `GET` the player-best key; when
it holds a parseable value with an `efficiency` field, reject a submission
whose efficiency is not strictly greater (no store mutation), otherwise
`ZREM` the prior serialized entry and accept; when the key is absent,
unparsable, or lacks `efficiency`, accept as a fresh submission. -/
def submitScore (st : Store) (mode name : String) (score accuracy efficiency : Int)
    (date : String) : SubmitResult × Store :=
  let key := rankingKey mode
  let pk := playerKey mode name
  let existing? : Option ScoreData :=
    match kvGet st pk with
    | some (StoredVal.ent d) => some d
    | some (StoredVal.noEff _) => none
    | some (StoredVal.malformed _) => none
    | none => none
  match existing? with
  | some d =>
    if efficiency ≤ d.efficiency then (SubmitResult.mk false none, st)
    else
      submitAccept (setZ st key (zrem (getZ st key) (Member.data d)))
        mode name score accuracy efficiency date
  | none => submitAccept st mode name score accuracy efficiency date

/-- One element of the flat WITHSCORES reply of ZREVRANGE: a member string
or a score rendered as a decimal string. -/
inductive Raw where
  | mem (m : Member)
  | int (n : Int)
deriving DecidableEq, Repr

/-- JavaScript `parseInt` on a raw reply element: a decimal score string
parses to its value; member strings (which begin with `\x7b` or a
non-numeric name character) parse to NaN, modelled as `none`. -/
def parseIntRaw : Raw → Option Int
  | .int n => some n
  | .mem _ => none

/-- One entry of the GET branch's `rankings` response.  Fields the branch
leaves `undefined` (legacy members have no structured fields; a member
parsed from a reduced JSON object has no score/accuracy/date) are `none`. -/
structure RankEntry where
  name : Option String
  score : Option Int
  accuracy : Option Int
  efficiency : Option Int
  date : Option String
deriving DecidableEq, Repr

/-- Decode one (member, score) pair of the reply, as the GET branch's loop
body does: try `JSON.parse` on the member string, fall back to the legacy
format `\x7bname: dataStr, efficiency\x7d` when parsing throws; in every case the
`efficiency` field is `parseInt` of the score half of the pair.  (A bare
numeric string in the member slot parses as a JSON number, whose `.name`
etc. are all `undefined`.) -/
def decodePair (d e : Raw) : RankEntry :=
  let eff := parseIntRaw e
  match d with
  | .mem (.data sd) => RankEntry.mk (some sd.name) (some sd.score) (some sd.accuracy) eff (some sd.date)
  | .mem (.reduced n _) => RankEntry.mk (some n) none none eff none
  | .mem (.legacy s) => RankEntry.mk (some s) none none eff none
  | .int _ => RankEntry.mk none none none eff none

/-- The GET branch's decoding loop over the flat reply: consume two elements
per entry; when a lone element remains (odd-length reply) the loop breaks
and discards it. -/
def parseRankings : List Raw → List RankEntry
  | [] => []
  | [_] => []
  | d :: e :: rest => decodePair d e :: parseRankings rest

/-- Flatten a list of (member, score) pairs into the WITHSCORES reply
shape. -/
def pairsToRaw : List (Member × Int) → List Raw
  | [] => []
  | p :: t => Raw.mem p.1 :: Raw.int p.2 :: pairsToRaw t

/-- The reply of `ZREVRANGE key 0 (cnt-1) WITHSCORES`: the top `cnt`
elements in descending order, members and scores alternating. -/
def zrevrangeWS (z : Zset) (cnt : Nat) : List Raw := pairsToRaw (z.reverse.take cnt)

/-- The GET branch after mode extraction: `ZREVRANGE key 0 49 WITHSCORES`
and the decoding loop.  (The branch's empty-reply debug reads and its
ZRANGE fallback are dead under store semantics: ZREVRANGE of an existing,
hence nonempty, sorted set is nonempty.) -/
def fetchRankings (st : Store) (mode : String) : List RankEntry :=
  parseRankings (zrevrangeWS (getZ st (rankingKey mode)) 50)

/-- The fixed set of mode identifiers the resetAll branch iterates. -/
def modesList : List String := ["flick", "tracking", "grid"]

/-- One iteration of the resetAll loop: `EXISTS ranking:<mode>` and, when
present, `DEL` it and record the key. -/
def resetStep (acc : List String × Store) (m : String) : List String × Store :=
  if zsetExists acc.2 (rankingKey m) then (acc.1 ++ [rankingKey m], delZ acc.2 (rankingKey m))
  else acc

/-- The DELETE branch with `resetAll = true` (after authorization): iterate
the fixed mode list, deleting each mode's present sorted-set key and
recording it; player-best keys are not touched (the REST store offers no
key scan).  Returns the recorded keys. -/
def resetAll (st : Store) : List String × Store := modesList.foldl resetStep ([], st)

/-- Number of entries of a sorted set with efficiency strictly greater than
a given value. -/
def countStrictGt (z : Zset) (eff : Int) : Nat :=
  (z.filter (fun q => decide (eff < q.2))).length

/-- Number of entries of a sorted set tied at a given efficiency whose
member string is lexicographically greater than the given member's
string. -/
def countTieLexGt (z : Zset) (m : Member) (eff : Int) : Nat :=
  (z.filter (fun q => decide (eff = q.2 ∧ strLt m.serialize q.1.serialize))).length

/-- One validated submission for a fixed (mode, name) pair. -/
structure Submission where
  score : Int
  accuracy : Int
  efficiency : Int
  date : String
deriving DecidableEq, Repr

/-- Run a sequence of submissions for a fixed (mode, name) pair, each one
seeing the store the previous one left behind. -/
def submitMany (mode name : String) : Store → List Submission → Store
  | st, [] => st
  | st, s :: rest =>
    submitMany mode name (submitScore st mode name s.score s.accuracy s.efficiency s.date).2 rest

/-- The 51 players of the trim scenario: player `p(i+1)` carries efficiency
`i+1`, for `i = 0 .. 50`. -/
def c1Players : List (String × Int) :=
  (List.range 51).map (fun i => ("p" ++ toString (i + 1), ((i : Int) + 1)))

/-- The store after the 51 players submit efficiencies 1..51 to mode
`tracking`, in increasing order, starting from an empty store. -/
def c1Final : Store :=
  c1Players.foldl (fun st pe => (submitScore st "tracking" pe.1 100 90 pe.2 "d").2) emptyStore

/-- A store in which player `b` holds efficiency 10 in mode `flick`. -/
def c5PreStore : Store := (submitScore emptyStore "flick" "b" 100 90 10 "d").2

/-- The submission of player `a` at the tied efficiency 10, on top of
`c5PreStore`. -/
def c5TieRun : SubmitResult × Store := submitScore c5PreStore "flick" "a" 100 90 10 "d"

/-- A store holding one prior best entry, for witnesses. -/
def c3Store : Store := (submitScore emptyStore "flick" "Alice" 1000 95 80 "d").2

/-- A two-entry store for the fetch-order witness. -/
def c7Store : Store :=
  (submitScore (submitScore emptyStore "grid" "Bob" 500 80 30 "d").2 "grid" "Cara" 700 85 60 "d").2

/-- A store whose player-best key holds a string that is not valid JSON. -/
def c10Store : Store :=
  Store.mk [] [("player:flick:Bob", StoredVal.malformed "oops")]

/-- A two-submission sequence for the best-is-maximum witness. -/
def c2Subs : List Submission :=
  [Submission.mk 100 90 5 "d", Submission.mk 50 80 3 "d"]

/-- A three-element (odd-length) raw reply for the truncation witness. -/
def c8Raw : List Raw :=
  [Raw.mem (Member.legacy "old"), Raw.int 7, Raw.mem (Member.legacy "trailing")]

/-- Code points determine characters. -/
theorem char_toNat_inj : Function.Injective Char.toNat :=
  StrictMono.injective (fun _ _ hl => hl)

/-- The character list determines the string. -/
theorem string_data_inj (s t : String) (h : s.data = t.data) : s = t := by
  cases s
  cases t
  simp_all

/-- Lexicographic comparison never holds of a list and itself. -/
theorem charListLt_irrefl : ∀ l : List Char, charListLt l l = false := by
  intro l
  induction l with
  | nil => rfl
  | cons a t ih => simp [charListLt, ih]

/-- Lexicographic comparison of character lists is transitive. -/
theorem charListLt_trans : ∀ l1 l2 l3 : List Char,
    charListLt l1 l2 = true → charListLt l2 l3 = true → charListLt l1 l3 = true := by
  intro l1
  induction l1 with
  | nil =>
    intro l2 l3 h1 h2
    cases l2 with
    | nil => exact absurd h1 (by simp [charListLt])
    | cons b bs =>
      cases l3 with
      | nil => exact absurd h2 (by simp [charListLt])
      | cons c cs => rfl
  | cons a as ih =>
    intro l2 l3 h1 h2
    cases l2 with
    | nil => exact absurd h1 (by simp [charListLt])
    | cons b bs =>
      cases l3 with
      | nil => exact absurd h2 (by simp [charListLt])
      | cons c cs =>
        rw [charListLt] at h1 h2 ⊢
        by_cases hab : a.toNat < b.toNat
        · by_cases hbc : b.toNat < c.toNat
          · rw [if_pos (by omega)]
          · rw [if_neg hbc] at h2
            by_cases hcb : c.toNat < b.toNat
            · rw [if_pos hcb] at h2
              exact absurd h2 (by simp)
            · rw [if_pos (by omega)]
        · rw [if_neg hab] at h1
          by_cases hba : b.toNat < a.toNat
          · rw [if_pos hba] at h1
            exact absurd h1 (by simp)
          · rw [if_neg hba] at h1
            by_cases hbc : b.toNat < c.toNat
            · rw [if_pos (by omega)]
            · rw [if_neg hbc] at h2
              by_cases hcb : c.toNat < b.toNat
              · rw [if_pos hcb] at h2
                exact absurd h2 (by simp)
              · rw [if_neg hcb] at h2
                rw [if_neg (by omega), if_neg (by omega)]
                exact ih bs cs h1 h2

/-- Lists unrelated either way by the lexicographic comparison are equal. -/
theorem charListLt_total_ne : ∀ l1 l2 : List Char, l1 ≠ l2 →
    charListLt l1 l2 = true ∨ charListLt l2 l1 = true := by
  intro l1
  induction l1 with
  | nil =>
    intro l2 hne
    cases l2 with
    | nil => exact absurd rfl hne
    | cons b bs => exact Or.inl rfl
  | cons a as ih =>
    intro l2 hne
    cases l2 with
    | nil => exact Or.inr rfl
    | cons b bs =>
      by_cases hab : a.toNat < b.toNat
      · exact Or.inl (by rw [charListLt, if_pos hab])
      · by_cases hba : b.toNat < a.toNat
        · exact Or.inr (by rw [charListLt, if_pos hba])
        · have heq : a = b := char_toNat_inj (by omega)
          subst heq
          have hne' : as ≠ bs := fun hc => hne (by rw [hc])
          rcases ih bs hne' with h | h
          · exact Or.inl (by rw [charListLt, if_neg hab, if_neg hba]; exact h)
          · exact Or.inr (by rw [charListLt, if_neg hab, if_neg hba]; exact h)

/-- The string order is transitive. -/
theorem strLt_trans {s t u : String} (h1 : strLt s t) (h2 : strLt t u) : strLt s u :=
  charListLt_trans s.data t.data u.data h1 h2

/-- The string order is irreflexive. -/
theorem strLt_irrefl (s : String) : ¬ strLt s s := by
  unfold strLt
  rw [charListLt_irrefl]
  simp

/-- Distinct strings are comparable. -/
theorem strLt_total_ne {s t : String} (h : s ≠ t) : strLt s t ∨ strLt t s :=
  charListLt_total_ne s.data t.data (fun hc => h (string_data_inj s t hc))

/-- The sorted-set element order is transitive. -/
theorem zkeyLt_trans {a b c : Member × Int} (h1 : zkeyLt a b) (h2 : zkeyLt b c) : zkeyLt a c := by
  rcases h1 with h1 | ⟨h1e, h1s⟩ <;> rcases h2 with h2 | ⟨h2e, h2s⟩
  · exact Or.inl (lt_trans h1 h2)
  · exact Or.inl (h2e ▸ h1)
  · exact Or.inl (h1e ▸ h2)
  · exact Or.inr ⟨h1e.trans h2e, strLt_trans h1s h2s⟩

/-- The sorted-set element order is irreflexive. -/
theorem zkeyLt_irrefl (a : Member × Int) : ¬ zkeyLt a a := by
  rintro (h | ⟨_, h⟩)
  · exact lt_irrefl _ h
  · exact strLt_irrefl _ h

/-- The sorted-set element order is asymmetric. -/
theorem zkeyLt_asymm {a b : Member × Int} (h : zkeyLt a b) : ¬ zkeyLt b a := fun h' =>
  zkeyLt_irrefl a (zkeyLt_trans h h')

/-- Elements with distinct member strings are comparable. -/
theorem zkeyLt_of_ne_serial {a b : Member × Int} (h : a.1.serialize ≠ b.1.serialize) :
    zkeyLt a b ∨ zkeyLt b a := by
  rcases lt_trichotomy a.2 b.2 with hlt | heq | hgt
  · exact Or.inl (Or.inl hlt)
  · rcases strLt_total_ne h with hs | hs
    · exact Or.inl (Or.inr ⟨heq, hs⟩)
    · exact Or.inr (Or.inr ⟨heq.symm, hs⟩)
  · exact Or.inr (Or.inl hgt)

/-- Membership in an insertion. -/
theorem mem_zinsert {q p : Member × Int} {z : Zset} :
    q ∈ zinsert p z ↔ q = p ∨ q ∈ z := by
  induction z with
  | nil => simp [zinsert]
  | cons a t ih =>
    by_cases h : zkeyLt p a
    · simp [zinsert, h]
    · simp only [zinsert, if_neg h, List.mem_cons, ih]
      tauto

/-- Inserting an element comparable with every list element preserves the
order invariant. -/
theorem pairwise_zinsert {p : Member × Int} {z : Zset} (hz : List.Pairwise zkeyLt z)
    (htot : ∀ q ∈ z, zkeyLt q p ∨ zkeyLt p q) :
    List.Pairwise zkeyLt (zinsert p z) := by
  induction z with
  | nil => simp [zinsert]
  | cons a t ih =>
    rcases List.pairwise_cons.mp hz with ⟨ha, ht⟩
    by_cases h : zkeyLt p a
    · simp only [zinsert, if_pos h]
      refine List.pairwise_cons.mpr ⟨?_, hz⟩
      intro r hr
      rcases List.mem_cons.mp hr with rfl | hrt
      · exact h
      · exact zkeyLt_trans h (ha r hrt)
    · simp only [zinsert, if_neg h]
      refine List.pairwise_cons.mpr ⟨?_, ih ht (fun q hq => htot q (List.mem_cons_of_mem a hq))⟩
      intro r hr
      rcases mem_zinsert.mp hr with rfl | hrt
      · rcases htot a (List.mem_cons_self a t) with hqa | hpa
        · exact hqa
        · exact absurd hpa h
      · exact ha r hrt

/-- ZREM yields a sublist. -/
theorem zrem_sublist (z : Zset) (m : Member) : List.Sublist (zrem z m) z :=
  List.filter_sublist z

/-- ZREM preserves the order invariant. -/
theorem pairwise_zrem {z : Zset} (m : Member) (hz : ZSorted z) : ZSorted (zrem z m) :=
  hz.sublist (zrem_sublist z m)

/-- Membership after ZREM. -/
theorem mem_zrem {q : Member × Int} {z : Zset} {m : Member} :
    q ∈ zrem z m ↔ q ∈ z ∧ q.1.serialize ≠ m.serialize := by
  simp [zrem]

/-- ZADD preserves the order invariant. -/
theorem pairwise_zadd {z : Zset} (s : Int) (m : Member) (hz : ZSorted z) :
    ZSorted (zadd z s m) := by
  refine pairwise_zinsert (pairwise_zrem m hz) ?_
  intro q hq
  rcases mem_zrem.mp hq with ⟨_, hne⟩
  exact zkeyLt_of_ne_serial hne

/-- Membership after ZADD. -/
theorem mem_zadd {q : Member × Int} {z : Zset} {s : Int} {m : Member} :
    q ∈ zadd z s m ↔ q = (m, s) ∨ (q ∈ z ∧ q.1.serialize ≠ m.serialize) := by
  unfold zadd
  rw [mem_zinsert, mem_zrem]

/-- In `zadd z s m`, the only element whose member string matches `m` is the
freshly inserted `(m, s)`. -/
theorem eq_of_mem_zadd_serial {q : Member × Int} {z : Zset} {s : Int} {m : Member}
    (hq : q ∈ zadd z s m) (h : q.1.serialize = m.serialize) : q = (m, s) := by
  rcases mem_zadd.mp hq with rfl | ⟨_, hne⟩
  · rfl
  · exact absurd h hne

/-- On a suffix of the list whose indexes all lie below the removal window's
upper end, ZREMRANGEBYRANK's worker keeps exactly the elements before the
window start. -/
theorem zremrangeGo_eq_take (z : Zset) : ∀ (s e : Int) (i : Nat),
    (i : Int) + z.length ≤ e + 1 →
    zremrangeGo s e i z = z.take (s - i).toNat := by
  induction z with
  | nil => intro s e i _; simp [zremrangeGo]
  | cons p t ih =>
    intro s e i he
    simp only [List.length_cons] at he
    have he' : ((i : Nat) + 1 : Int) + t.length ≤ e + 1 := by push_cast at he ⊢; omega
    have hie : (i : Int) ≤ e := by
      have : (0 : Int) ≤ t.length := Int.ofNat_nonneg t.length
      push_cast at he
      omega
    by_cases hs : s ≤ (i : Int)
    · have h0 : (s - i).toNat = 0 := by omega
      have h1 : (s - ((i : Nat) + 1 : Nat)).toNat = 0 := by push_cast; omega
      rw [zremrangeGo, if_pos ⟨hs, hie⟩, ih s e (i + 1) he', h0, h1]
      simp
    · have h1 : (s - i).toNat = (s - ((i : Nat) + 1 : Nat)).toNat + 1 := by push_cast; omega
      rw [zremrangeGo, if_neg (fun hc => hs hc.1), ih s e (i + 1) he', h1]
      rfl

/-- The trim step keeps the first (ascending, i.e. lowest-scoring) 50
elements whenever the cardinality exceeds 50. -/
theorem ztrim_eq (z : Zset) : ztrim z = if 50 < z.length then z.take 50 else z := by
  unfold ztrim zremrangebyrank zcard
  by_cases h : 50 < z.length
  · rw [if_pos h, if_pos h]
    have h50 : ¬ ((50 : Int) < 0) := by omega
    have hm1 : ((-1 : Int) < 0) := by omega
    rw [if_neg h50, if_pos hm1]
    rw [zremrangeGo_eq_take z 50 ((z.length : Int) + (-1)) 0 (by omega)]
    norm_num
    rfl
  · rw [if_neg h, if_neg h]

/-- After the trim step the set never holds more than 50 elements. -/
theorem ztrim_length_le (z : Zset) : (ztrim z).length ≤ 50 := by
  rw [ztrim_eq]
  by_cases h : 50 < z.length
  · rw [if_pos h, List.length_take]
    omega
  · rw [if_neg h]
    omega

/-- The trim step yields a sublist. -/
theorem ztrim_sublist (z : Zset) : List.Sublist (ztrim z) z := by
  rw [ztrim_eq]
  by_cases h : 50 < z.length
  · rw [if_pos h]; exact List.take_sublist 50 z
  · rw [if_neg h]

/-- The trim step preserves the order invariant. -/
theorem pairwise_ztrim {z : Zset} (hz : ZSorted z) : ZSorted (ztrim z) :=
  hz.sublist (ztrim_sublist z)

/-- Lookup after erasing a key. -/
theorem assocGet_erase {α : Type} (l : List (String × α)) (k k' : String) :
    assocGet (assocErase l k) k' = if k' = k then none else assocGet l k' := by
  induction l with
  | nil => by_cases h : k' = k <;> simp [assocErase, assocGet, h]
  | cons p t ih =>
    by_cases hp : p.1 = k
    · by_cases h : k' = k
      · subst h; simp [assocErase, hp, ih]
      · have hpk : ¬ p.1 = k' := by rw [hp]; exact fun hc => h hc.symm
        have hkk : ¬ k = k' := fun hc => h hc.symm
        simp [assocErase, assocGet, hp, hpk, ih, h, hkk]
    · by_cases hpk : p.1 = k'
      · have h : ¬ k' = k := fun hc => hp (hpk.trans hc)
        simp [assocErase, assocGet, hp, hpk, h]
      · by_cases h : k' = k
        · subst h; simp [assocErase, assocGet, hp, hpk, ih]
        · simp [assocErase, assocGet, hp, hpk, ih, h]

/-- Writing a sorted set leaves the string keyspace untouched. -/
theorem kv_setZ (st : Store) (k : String) (z : Zset) : (setZ st k z).kv = st.kv := by
  unfold setZ
  by_cases h : z = [] <;> simp [h]

/-- Setting a string key leaves the sorted sets untouched. -/
theorem zsets_kvSet (st : Store) (k : String) (v : StoredVal) :
    (kvSet st k v).zsets = st.zsets := rfl

/-- Lookup of a sorted-set key after writing one. -/
theorem zGet?_setZ (st : Store) (k : String) (z : Zset) (k' : String) :
    zGet? (setZ st k z) k' =
      if k' = k then (if z = [] then none else some z) else zGet? st k' := by
  unfold setZ zGet?
  by_cases hz : z = []
  · rw [if_pos hz]
    show assocGet (assocErase st.zsets k) k' = _
    rw [assocGet_erase]
    by_cases h : k' = k
    · rw [if_pos h, if_pos h, if_pos hz]
    · rw [if_neg h, if_neg h]
  · rw [if_neg hz]
    show assocGet ((k, z) :: assocErase st.zsets k) k' = _
    rw [assocGet]
    by_cases h : k' = k
    · rw [if_pos (show k = k' from h.symm), if_pos h, if_neg hz]
    · rw [if_neg (fun hc : k = k' => h hc.symm), assocGet_erase, if_neg h, if_neg h]

/-- Reading back the key just written. -/
theorem getZ_setZ_self (st : Store) (k : String) (z : Zset) : getZ (setZ st k z) k = z := by
  unfold getZ
  rw [zGet?_setZ, if_pos rfl]
  by_cases hz : z = []
  · rw [if_pos hz, hz]; rfl
  · rw [if_neg hz]; rfl

/-- Reading another key after a write. -/
theorem getZ_setZ_ne (st : Store) (k : String) (z : Zset) (k' : String) (h : k' ≠ k) :
    getZ (setZ st k z) k' = getZ st k' := by
  unfold getZ
  rw [zGet?_setZ, if_neg h]

/-- Reading a sorted set is unaffected by string-key writes. -/
theorem getZ_kvSet (st : Store) (k : String) (v : StoredVal) (k' : String) :
    getZ (kvSet st k v) k' = getZ st k' := rfl

/-- Lookup of a sorted-set key after a DEL. -/
theorem zGet?_delZ (st : Store) (k k' : String) :
    zGet? (delZ st k) k' = if k' = k then none else zGet? st k' := by
  unfold delZ zGet?
  exact assocGet_erase st.zsets k k'

/-- DEL of a sorted-set key leaves the string keyspace untouched. -/
theorem kv_delZ (st : Store) (k : String) : (delZ st k).kv = st.kv := rfl

/-- Reading back the string key just written. -/
theorem kvGet_kvSet_self (st : Store) (k : String) (v : StoredVal) :
    kvGet (kvSet st k v) k = some v := by
  unfold kvGet kvSet
  show assocGet ((k, v) :: assocErase st.kv k) k = some v
  rw [assocGet, if_pos rfl]

/-- Reading another string key after a write. -/
theorem kvGet_kvSet_ne (st : Store) (k : String) (v : StoredVal) (k' : String) (h : k' ≠ k) :
    kvGet (kvSet st k v) k' = kvGet st k' := by
  unfold kvGet kvSet
  show assocGet ((k, v) :: assocErase st.kv k) k' = assocGet st.kv k'
  rw [assocGet, if_neg (fun hc : k = k' => h hc.symm), assocGet_erase, if_neg h]

/-- Reading a string key is unaffected by sorted-set writes. -/
theorem kvGet_setZ (st : Store) (k : String) (z : Zset) (k' : String) :
    kvGet (setZ st k z) k' = kvGet st k' := by
  unfold kvGet
  rw [kv_setZ]

/-- Decoding a (member, score) pair always takes the entry's efficiency from
the score half of the pair. -/
theorem decodePair_efficiency (m : Member) (s : Int) :
    (decodePair (Raw.mem m) (Raw.int s)).efficiency = some s := by
  cases m <;> rfl

/-- The decoding loop on a flattened pair list decodes exactly the pairs. -/
theorem parseRankings_pairsToRaw (l : List (Member × Int)) :
    parseRankings (pairsToRaw l) =
      l.map (fun p => decodePair (Raw.mem p.1) (Raw.int p.2)) := by
  induction l with
  | nil => rfl
  | cons p t ih => simp [pairsToRaw, parseRankings, ih]

/-- The decoding loop produces one entry per complete pair. -/
theorem parseRankings_length (l : List Raw) :
    (parseRankings l).length = l.length / 2 := by
  induction l using parseRankings.induct with
  | case1 => simp [parseRankings]
  | case2 => simp [parseRankings]
  | case3 d e rest ih =>
    simp only [parseRankings, List.length_cons, ih]
    omega

/-- On an odd-length reply the decoding loop never looks at the trailing
unpaired element. -/
theorem parseRankings_dropLast (l : List Raw) (h : l.length % 2 = 1) :
    parseRankings l = parseRankings l.dropLast := by
  induction l using parseRankings.induct with
  | case1 => simp [parseRankings]
  | case2 => simp [parseRankings, List.dropLast]
  | case3 d e rest ih =>
    simp only [List.length_cons] at h
    have hrest : rest.length % 2 = 1 := by omega
    have hne : rest ≠ [] := by
      intro hc
      rw [hc] at hrest
      simp at hrest
    have hdl : (d :: e :: rest).dropLast = d :: e :: rest.dropLast := by
      cases rest with
      | nil => exact absurd rfl hne
      | cons c t2 => rfl
    rw [hdl, parseRankings, parseRankings, ih hrest]

/-- A member whose string matches nothing in the list has no rank. -/
theorem revIdxOf_eq_none {l : Zset} {m : Member}
    (h : ∀ q ∈ l, q.1.serialize ≠ m.serialize) : revIdxOf m l = none := by
  induction l with
  | nil => rfl
  | cons a t ih =>
    rw [revIdxOf, if_neg (h a (List.mem_cons_self a t)), ih (fun q hq => h q (List.mem_cons_of_mem a hq))]
    rfl

/-- In a strictly descending list containing a unique match for the member,
the rank index equals the number of elements strictly greater in the
sorted-set order. -/
theorem revIdxOf_count (l : Zset) (hl : List.Pairwise (fun a b => zkeyLt b a) l)
    (p : Member × Int) (hp : p ∈ l)
    (hu : ∀ q ∈ l, q.1.serialize = p.1.serialize → q = p) :
    revIdxOf p.1 l = some (l.countP (fun q => decide (zkeyLt p q))) := by
  induction l with
  | nil => exact absurd hp (List.not_mem_nil p)
  | cons a t ih =>
    rcases List.pairwise_cons.mp hl with ⟨ha, ht⟩
    by_cases h : a.1.serialize = p.1.serialize
    · have hap : a = p := hu a (List.mem_cons_self a t) h
      subst hap
      rw [revIdxOf, if_pos h]
      have hz : (a :: t).countP (fun q => decide (zkeyLt a q)) = 0 := by
        rw [List.countP_eq_zero]
        intro q hq
        rcases List.mem_cons.mp hq with rfl | hqt
        · simpa using zkeyLt_irrefl q
        · simpa using zkeyLt_asymm (ha q hqt)
      rw [hz]
    · have hpt : p ∈ t := by
        rcases List.mem_cons.mp hp with rfl | hpt
        · exact absurd rfl h
        · exact hpt
      rw [revIdxOf, if_neg h,
        ih ht hpt (fun q hq hqs => hu q (List.mem_cons_of_mem a hq) hqs)]
      have hpa : zkeyLt p a := ha p hpt
      rw [List.countP_cons, if_pos (by simpa using hpa)]
      rfl

/-- ZREVRANK of a uniquely matched member of a sorted set counts the
elements strictly greater in the sorted-set order. -/
theorem zrevrank_eq_count {z : Zset} (hz : ZSorted z) {p : Member × Int} (hp : p ∈ z)
    (hu : ∀ q ∈ z, q.1.serialize = p.1.serialize → q = p) :
    zrevrank z p.1 = some (z.countP (fun q => decide (zkeyLt p q))) := by
  unfold zrevrank
  have hrev : List.Pairwise (fun a b => zkeyLt b a) z.reverse := by
    rw [List.pairwise_reverse]
    exact hz
  rw [revIdxOf_count z.reverse hrev p (List.mem_reverse.mpr hp)
    (fun q hq hqs => hu q (List.mem_reverse.mp hq) hqs)]
  rw [z.reverse_perm.countP_eq]

/-- ZREVRANK of a member matched nowhere in the set is `none`. -/
theorem zrevrank_eq_none {z : Zset} {m : Member}
    (h : ∀ q ∈ z, q.1.serialize ≠ m.serialize) : zrevrank z m = none :=
  revIdxOf_eq_none (fun q hq => h q (List.mem_reverse.mp hq))

/-- Counting a disjunction of two disjoint decidable predicates splits into
the two separate counts. -/
theorem countP_or_disjoint {a : Type} (P Q : a → Prop) [DecidablePred P] [DecidablePred Q]
    (l : List a) (hdisj : ∀ x, P x → Q x → False) :
    l.countP (fun x => decide (P x ∨ Q x)) =
      l.countP (fun x => decide (P x)) + l.countP (fun x => decide (Q x)) := by
  induction l with
  | nil => rfl
  | cons x t ih =>
    rw [List.countP_cons, List.countP_cons, List.countP_cons, ih]
    by_cases hP : P x
    · have hQ : ¬ Q x := fun hq => hdisj x hP hq
      rw [if_pos (by simp [hP]), if_pos (by simp [hP]), if_neg (by simp [hQ])]
      omega
    · by_cases hQ : Q x
      · rw [if_pos (by simp [hP, hQ]), if_neg (by simp [hP]), if_pos (by simp [hQ])]
        omega
      · rw [if_neg (by simp [hP, hQ]), if_neg (by simp [hP]), if_neg (by simp [hQ])]
        omega

/-- Splitting the count of strictly greater elements into the
strictly-greater-score part and the tied, lexicographically greater part. -/
theorem countP_zkeyLt_split (z : Zset) (p : Member × Int) :
    z.countP (fun q => decide (zkeyLt p q)) =
      countStrictGt z p.2 + countTieLexGt z p.1 p.2 := by
  unfold countStrictGt countTieLexGt
  rw [← List.countP_eq_length_filter, ← List.countP_eq_length_filter]
  have hdec : ∀ q : Member × Int, decide (zkeyLt p q) =
      decide (p.2 < q.2 ∨ (p.2 = q.2 ∧ strLt p.1.serialize q.1.serialize)) := by
    intro q
    exact decide_eq_decide.mpr Iff.rfl
  simp only [hdec]
  exact countP_or_disjoint _ _ z
    (fun q h1 h2 => absurd (h2.1 ▸ h1) (lt_irrefl _))

/-- An accepted submission reports `updated = true`. -/
theorem submitAccept_updated (st : Store) (mode name : String) (sc acc eff : Int) (date : String) :
    (submitAccept st mode name sc acc eff date).1.updated = true := rfl

/-- The sorted set the acceptance tail leaves under the mode's key: the trim
of the ZADD of the fresh entry. -/
theorem submitAccept_getZ (st : Store) (mode name : String) (sc acc eff : Int) (date : String) :
    getZ (submitAccept st mode name sc acc eff date).2 (rankingKey mode) =
      ztrim (zadd (getZ st (rankingKey mode)) eff
        (Member.data (mkScoreData name sc acc eff date))) := by
  simp only [submitAccept]
  rw [getZ_setZ_self, getZ_kvSet, getZ_setZ_self]

/-- The acceptance tail leaves every other sorted-set key unchanged. -/
theorem submitAccept_getZ_ne (st : Store) (mode name : String) (sc acc eff : Int) (date : String)
    (k : String) (hk : k ≠ rankingKey mode) :
    getZ (submitAccept st mode name sc acc eff date).2 k = getZ st k := by
  simp only [submitAccept]
  rw [getZ_setZ_ne _ _ _ _ hk, getZ_kvSet, getZ_setZ_ne _ _ _ _ hk]

/-- The acceptance tail overwrites the player-best key with the fresh
entry. -/
theorem submitAccept_kv (st : Store) (mode name : String) (sc acc eff : Int) (date : String) :
    kvGet (submitAccept st mode name sc acc eff date).2 (playerKey mode name) =
      some (StoredVal.ent (mkScoreData name sc acc eff date)) := by
  simp only [submitAccept]
  rw [kvGet_setZ, kvGet_kvSet_self]

/-- The rank the acceptance tail reports: ZREVRANK of the fresh member on
the trimmed set, plus one, with 51 for a missing member. -/
theorem submitAccept_rank (st : Store) (mode name : String) (sc acc eff : Int) (date : String) :
    (submitAccept st mode name sc acc eff date).1.rank =
      some (match zrevrank (ztrim (zadd (getZ st (rankingKey mode)) eff
            (Member.data (mkScoreData name sc acc eff date))))
          (Member.data (mkScoreData name sc acc eff date)) with
        | some n => (n : Int) + 1
        | none => 51) := by
  simp only [submitAccept]
  rw [getZ_setZ_self, getZ_kvSet, getZ_setZ_self]

/-- With no record under the player-best key, the POST branch goes straight
to the acceptance tail on the unmodified store. -/
theorem submitScore_no_prior (st : Store) (mode name : String) (sc acc eff : Int) (date : String)
    (h : kvGet st (playerKey mode name) = none) :
    submitScore st mode name sc acc eff date = submitAccept st mode name sc acc eff date := by
  simp only [submitScore, h]

/-- With an unparsable record under the player-best key, the POST branch
goes straight to the acceptance tail on the unmodified store. -/
theorem submitScore_malformed (st : Store) (mode name : String) (sc acc eff : Int) (date : String)
    (s : String) (h : kvGet st (playerKey mode name) = some (StoredVal.malformed s)) :
    submitScore st mode name sc acc eff date = submitAccept st mode name sc acc eff date := by
  simp only [submitScore, h]

/-- With a record that parses but lacks an efficiency field, the POST branch
goes straight to the acceptance tail on the unmodified store. -/
theorem submitScore_noEff (st : Store) (mode name : String) (sc acc eff : Int) (date : String)
    (s : String) (h : kvGet st (playerKey mode name) = some (StoredVal.noEff s)) :
    submitScore st mode name sc acc eff date = submitAccept st mode name sc acc eff date := by
  simp only [submitScore, h]

/-- A submission not strictly above the stored best is rejected with no
store mutation at all. -/
theorem submitScore_reject (st : Store) (mode name : String) (sc acc eff : Int) (date : String)
    (d : ScoreData) (h : kvGet st (playerKey mode name) = some (StoredVal.ent d))
    (hle : eff ≤ d.efficiency) :
    submitScore st mode name sc acc eff date = (SubmitResult.mk false none, st) := by
  simp only [submitScore, h, if_pos hle]

/-- A submission strictly above the stored best first removes the prior
serialized entry from the sorted set, then runs the acceptance tail. -/
theorem submitScore_supersede (st : Store) (mode name : String) (sc acc eff : Int) (date : String)
    (d : ScoreData) (h : kvGet st (playerKey mode name) = some (StoredVal.ent d))
    (hgt : d.efficiency < eff) :
    submitScore st mode name sc acc eff date =
      submitAccept (setZ st (rankingKey mode) (zrem (getZ st (rankingKey mode)) (Member.data d)))
        mode name sc acc eff date := by
  simp only [submitScore, h, if_neg (not_le.mpr hgt)]

/-- Effect of one submission on a player-best key that holds a full
entry: kept on rejection, overwritten with the fresh entry otherwise. -/
theorem submitScore_kv_ent (st : Store) (mode name : String) (sc acc eff : Int) (date : String)
    (d : ScoreData) (h : kvGet st (playerKey mode name) = some (StoredVal.ent d)) :
    kvGet (submitScore st mode name sc acc eff date).2 (playerKey mode name) =
      some (StoredVal.ent (if eff ≤ d.efficiency then d else mkScoreData name sc acc eff date)) := by
  by_cases hle : eff ≤ d.efficiency
  · rw [submitScore_reject st mode name sc acc eff date d h hle, if_pos hle]
    exact h
  · rw [submitScore_supersede st mode name sc acc eff date d h (not_le.mp hle),
      submitAccept_kv, if_neg hle]

/-- A left max-fold either returns its seed or an element of the list. -/
theorem foldl_max_eq_or_mem (l : List Int) : ∀ a : Int, l.foldl max a = a ∨ l.foldl max a ∈ l := by
  induction l with
  | nil => intro a; exact Or.inl rfl
  | cons b t ih =>
    intro a
    rw [List.foldl_cons]
    rcases ih (max a b) with h | h
    · rcases max_choice a b with hm | hm
      · exact Or.inl (by rw [h, hm])
      · exact Or.inr (by rw [h, hm]; exact List.mem_cons_self b t)
    · exact Or.inr (List.mem_cons_of_mem b h)

/-- The seed is below a left max-fold. -/
theorem le_foldl_max (l : List Int) : ∀ a : Int, a ≤ l.foldl max a := by
  induction l with
  | nil => intro a; exact le_refl a
  | cons b t ih =>
    intro a
    rw [List.foldl_cons]
    exact le_trans (le_max_left a b) (ih (max a b))

/-- Every list element is below a left max-fold. -/
theorem mem_le_foldl_max (l : List Int) : ∀ (a x : Int), x ∈ l → x ≤ l.foldl max a := by
  induction l with
  | nil => intro a x hx; exact absurd hx (List.not_mem_nil x)
  | cons b t ih =>
    intro a x hx
    rw [List.foldl_cons]
    rcases List.mem_cons.mp hx with rfl | hxt
    · exact le_trans (le_max_right a x) (le_foldl_max t (max a x))
    · exact ih (max a b) x hxt

/-- Running a submission sequence on a store whose player-best key holds a
full entry leaves a full entry whose efficiency is the max-fold of the
submitted efficiencies over the prior one. -/
theorem submitMany_kv (mode name : String) (subs : List Submission) :
    ∀ (st : Store) (d : ScoreData),
      kvGet st (playerKey mode name) = some (StoredVal.ent d) →
      ∃ d' : ScoreData,
        kvGet (submitMany mode name st subs) (playerKey mode name) = some (StoredVal.ent d')
        ∧ d'.efficiency = (subs.map Submission.efficiency).foldl max d.efficiency := by
  induction subs with
  | nil => intro st d h; exact ⟨d, h, rfl⟩
  | cons s rest ih =>
    intro st d h
    have hstep := submitScore_kv_ent st mode name s.score s.accuracy s.efficiency s.date d h
    have heff : (if s.efficiency ≤ d.efficiency then d
        else mkScoreData name s.score s.accuracy s.efficiency s.date).efficiency =
        max d.efficiency s.efficiency := by
      by_cases hle : s.efficiency ≤ d.efficiency
      · rw [if_pos hle, max_eq_left hle]
      · rw [if_neg hle, max_eq_right (le_of_not_le hle)]
        rfl
    rcases ih _ _ hstep with ⟨d', hd', hmax⟩
    refine ⟨d', ?_, ?_⟩
    · rw [submitMany]
      exact hd'
    · rw [hmax, heff, List.map_cons, List.foldl_cons]

/-- Existence of a sorted-set key after a DEL. -/
theorem zsetExists_delZ (st : Store) (k k' : String) :
    zsetExists (delZ st k) k' = if k' = k then false else zsetExists st k' := by
  unfold zsetExists
  rw [zGet?_delZ]
  by_cases h : k' = k
  · rw [if_pos h, if_pos h]; rfl
  · rw [if_neg h, if_neg h]

/-- What the resetAll fold computes over any mode list with pairwise
distinct ranking keys: the recorded keys are exactly the previously
existing ones, the string keyspace is untouched, and exactly the listed
keys end up absent. -/
theorem resetAll_fold (ms : List String) :
    ∀ (l0 : List String) (st : Store), (ms.map rankingKey).Nodup →
      ((ms.foldl resetStep (l0, st)).1 =
        l0 ++ (ms.map rankingKey).filter (fun k => zsetExists st k))
      ∧ ((ms.foldl resetStep (l0, st)).2.kv = st.kv)
      ∧ (∀ k : String, zGet? (ms.foldl resetStep (l0, st)).2 k =
          if k ∈ ms.map rankingKey then none else zGet? st k) := by
  induction ms with
  | nil =>
    intro l0 st _
    refine ⟨by simp, rfl, ?_⟩
    intro k
    simp
  | cons m rest ih =>
    intro l0 st hnd
    rw [List.map_cons, List.nodup_cons] at hnd
    rcases hnd with ⟨hK, hnd⟩
    rw [List.foldl_cons]
    by_cases hE : zsetExists st (rankingKey m) = true
    · have hstep : resetStep (l0, st) m = (l0 ++ [rankingKey m], delZ st (rankingKey m)) := by
        unfold resetStep
        rw [if_pos hE]
      rw [hstep]
      rcases ih (l0 ++ [rankingKey m]) (delZ st (rankingKey m)) hnd with ⟨ih1, ih2, ih3⟩
      refine ⟨?_, by rw [ih2]; rfl, ?_⟩
      · rw [ih1, List.map_cons, List.filter_cons, if_pos hE]
        have hfix : (rest.map rankingKey).filter (fun k => zsetExists (delZ st (rankingKey m)) k)
            = (rest.map rankingKey).filter (fun k => zsetExists st k) := by
          apply List.filter_congr
          intro k hk
          have hne : k ≠ rankingKey m := fun hc => hK (hc ▸ hk)
          rw [zsetExists_delZ, if_neg hne]
        rw [hfix, List.append_assoc, List.singleton_append]
      · intro k
        rw [ih3 k]
        by_cases hk1 : k ∈ rest.map rankingKey
        · simp [hk1]
        · by_cases hk2 : k = rankingKey m
          · subst hk2
            simp [hk1, zGet?_delZ]
          · simp [hk1, hk2, zGet?_delZ]
    · have hstep : resetStep (l0, st) m = (l0, st) := by
        unfold resetStep
        rw [if_neg hE]
      rw [hstep]
      rcases ih l0 st hnd with ⟨ih1, ih2, ih3⟩
      refine ⟨?_, ih2, ?_⟩
      · rw [ih1, List.map_cons, List.filter_cons, if_neg hE]
      · intro k
        rw [ih3 k]
        by_cases hk1 : k ∈ rest.map rankingKey
        · simp [hk1]
        · by_cases hk2 : k = rankingKey m
          · subst hk2
            have hnone : zGet? st (rankingKey m) = none := by
              unfold zsetExists at hE
              cases hz : zGet? st (rankingKey m) with
              | none => rfl
              | some z => rw [hz] at hE; exact absurd rfl hE
            simp [hk1, hnone]
          · simp [hk1, hk2]

/-- The acceptance tail keeps every sorted set within the 50-entry bound,
given the bound on the incoming store. -/
theorem submitAccept_card_le (st : Store) (mode name : String) (sc acc eff : Int) (date : String)
    (h : ∀ k : String, (getZ st k).length ≤ 50) (k : String) :
    (getZ (submitAccept st mode name sc acc eff date).2 k).length ≤ 50 := by
  by_cases hk : k = rankingKey mode
  · subst hk
    rw [submitAccept_getZ]
    exact ztrim_length_le _
  · rw [submitAccept_getZ_ne st mode name sc acc eff date k hk]
    exact h k

/-- ZREVRANK count identity restated at an explicit (member, score) pair. -/
theorem zrevrank_eq_count_pair {z : Zset} (hz : ZSorted z) {m : Member} {s : Int}
    (hp : (m, s) ∈ z) (hu : ∀ q ∈ z, q.1.serialize = m.serialize → q = (m, s)) :
    zrevrank z m = some (z.countP (fun q => decide (zkeyLt (m, s) q))) :=
  zrevrank_eq_count hz hp hu

/-- The rank the acceptance tail reports, in closed form over a sorted
incoming set: one plus the number of strictly-higher-efficiency entries plus
the number of tied entries with lexicographically greater member strings
when the fresh entry survives the trim, and the sentinel 51 otherwise. -/
theorem submitAccept_rank_formula (st : Store) (mode name : String) (sc acc eff : Int)
    (date : String) (hs : ZSorted (getZ st (rankingKey mode))) :
    (submitAccept st mode name sc acc eff date).1.rank =
      some (if (Member.data (mkScoreData name sc acc eff date), eff)
            ∈ getZ (submitAccept st mode name sc acc eff date).2 (rankingKey mode)
        then ((1 + countStrictGt (getZ (submitAccept st mode name sc acc eff date).2 (rankingKey mode)) eff
              + countTieLexGt (getZ (submitAccept st mode name sc acc eff date).2 (rankingKey mode))
                  (Member.data (mkScoreData name sc acc eff date)) eff : Nat) : Int)
        else 51) := by
  rw [submitAccept_rank, submitAccept_getZ]
  have hzF : ZSorted (ztrim (zadd (getZ st (rankingKey mode)) eff
      (Member.data (mkScoreData name sc acc eff date)))) :=
    pairwise_ztrim (pairwise_zadd eff (Member.data (mkScoreData name sc acc eff date)) hs)
  by_cases hmem : (Member.data (mkScoreData name sc acc eff date), eff)
      ∈ ztrim (zadd (getZ st (rankingKey mode)) eff (Member.data (mkScoreData name sc acc eff date)))
  · have huniq : ∀ q ∈ ztrim (zadd (getZ st (rankingKey mode)) eff
        (Member.data (mkScoreData name sc acc eff date))),
        q.1.serialize = (Member.data (mkScoreData name sc acc eff date)).serialize →
        q = (Member.data (mkScoreData name sc acc eff date), eff) := by
      intro q hq hqs
      exact eq_of_mem_zadd_serial ((ztrim_sublist _).subset hq) hqs
    rw [zrevrank_eq_count_pair hzF hmem huniq, if_pos hmem]
    have hsplit : (ztrim (zadd (getZ st (rankingKey mode)) eff
          (Member.data (mkScoreData name sc acc eff date)))).countP
          (fun q => decide (zkeyLt (Member.data (mkScoreData name sc acc eff date), eff) q)) =
        countStrictGt (ztrim (zadd (getZ st (rankingKey mode)) eff
          (Member.data (mkScoreData name sc acc eff date)))) eff
        + countTieLexGt (ztrim (zadd (getZ st (rankingKey mode)) eff
          (Member.data (mkScoreData name sc acc eff date))))
          (Member.data (mkScoreData name sc acc eff date)) eff :=
      countP_zkeyLt_split _ (Member.data (mkScoreData name sc acc eff date), eff)
    rw [hsplit]
    push_cast
    ring_nf
  · have hno : ∀ q ∈ ztrim (zadd (getZ st (rankingKey mode)) eff
        (Member.data (mkScoreData name sc acc eff date))),
        q.1.serialize ≠ (Member.data (mkScoreData name sc acc eff date)).serialize := by
      intro q hq hqs
      have hq' : q = (Member.data (mkScoreData name sc acc eff date), eff) :=
        eq_of_mem_zadd_serial ((ztrim_sublist _).subset hq) hqs
      exact hmem (hq' ▸ hq)
    rw [zrevrank_eq_none hno, if_neg hmem]

set_option maxRecDepth 400000

/-- C1 (code_bug evidence): in the 51-player scenario of the claim — 51
distinct players submit strictly increasing efficiencies 1..51 for mode
`tracking` — the mode's sorted collection does end at exactly 50 entries,
but the range-eviction `ZREMRANGEBYRANK key 50 -1` removes ascending ranks
(lowest score is rank 0), so the entry evicted is the HIGHEST efficiency
(51) while the lowest (efficiency 1) survives, contradicting the claim and
the code's own `keep top 50` comments. -/
theorem c1_trim_scenario :
    (getZ c1Final (rankingKey "tracking")).length = 50
    ∧ ((getZ c1Final (rankingKey "tracking")).any (fun p => decide (p.2 = 1))) = true
    ∧ ((getZ c1Final (rankingKey "tracking")).any (fun p => decide (p.2 = 51))) = false
    ∧ (fetchRankings c1Final "tracking").length = 50
    ∧ ((fetchRankings c1Final "tracking").any (fun r => decide (r.efficiency = some 1))) = true
    ∧ ((fetchRankings c1Final "tracking").any (fun r => decide (r.efficiency = some 51))) = false := by
  decide

/-- C2: starting with no record for the fixed (mode, name) pair, after any
nonempty sequence of completed submissions the player-best key holds a full
entry whose efficiency is the maximum efficiency submitted in the
sequence. -/
theorem c2_best_is_max (st : Store) (mode name : String) (subs : List Submission)
    (hne : subs ≠ []) (h : kvGet st (playerKey mode name) = none) :
    ∃ d' : ScoreData,
      kvGet (submitMany mode name st subs) (playerKey mode name) = some (StoredVal.ent d')
      ∧ d'.efficiency ∈ subs.map Submission.efficiency
      ∧ ∀ e ∈ subs.map Submission.efficiency, e ≤ d'.efficiency := by
  cases subs with
  | nil => exact absurd rfl hne
  | cons s rest =>
    have h1 : kvGet (submitScore st mode name s.score s.accuracy s.efficiency s.date).2
        (playerKey mode name)
        = some (StoredVal.ent (mkScoreData name s.score s.accuracy s.efficiency s.date)) := by
      rw [submitScore_no_prior st mode name s.score s.accuracy s.efficiency s.date h]
      exact submitAccept_kv st mode name s.score s.accuracy s.efficiency s.date
    rcases submitMany_kv mode name rest _ _ h1 with ⟨d', hd', hmax⟩
    refine ⟨d', ?_, ?_, ?_⟩
    · rw [submitMany]
      exact hd'
    · rw [List.map_cons, hmax]
      rcases foldl_max_eq_or_mem (rest.map Submission.efficiency)
          (mkScoreData name s.score s.accuracy s.efficiency s.date).efficiency with hh | hh
      · rw [hh]
        exact List.mem_cons_self _ _
      · exact List.mem_cons_of_mem _ hh
    · intro e he
      rw [List.map_cons] at he
      rcases List.mem_cons.mp he with rfl | het
      · rw [hmax]
        exact le_foldl_max _ _
      · rw [hmax]
        exact mem_le_foldl_max _ _ _ het

/-- C2 witness: two concrete submissions on the empty store. -/
theorem c2_best_is_max_witness :
    c2Subs ≠ [] ∧ kvGet emptyStore (playerKey "flick" "Zed") = none
    ∧ ∃ d' : ScoreData,
        kvGet (submitMany "flick" "Zed" emptyStore c2Subs) (playerKey "flick" "Zed")
          = some (StoredVal.ent d')
        ∧ d'.efficiency ∈ c2Subs.map Submission.efficiency
        ∧ ∀ e ∈ c2Subs.map Submission.efficiency, e ≤ d'.efficiency :=
  ⟨by decide, by decide, c2_best_is_max emptyStore "flick" "Zed" c2Subs (by decide) (by decide)⟩

/-- C3: while the player-best key holds a full entry with efficiency E, a
submission with efficiency at most E is rejected (`updated = false`, no
rank) and the whole store is returned unchanged — no mutation of the sorted
collection or of the player-best record. -/
theorem c3_reject_no_mutation (st : Store) (mode name : String) (sc acc eff : Int) (date : String)
    (d : ScoreData) (h : kvGet st (playerKey mode name) = some (StoredVal.ent d))
    (hle : eff ≤ d.efficiency) :
    submitScore st mode name sc acc eff date = (SubmitResult.mk false none, st) :=
  submitScore_reject st mode name sc acc eff date d h hle

/-- C3 witness: Alice at 80 rejects a submission at 70 without mutation. -/
theorem c3_reject_no_mutation_witness :
    kvGet c3Store (playerKey "flick" "Alice") = some (StoredVal.ent (mkScoreData "Alice" 1000 95 80 "d"))
    ∧ (70 : Int) ≤ (mkScoreData "Alice" 1000 95 80 "d").efficiency
    ∧ submitScore c3Store "flick" "Alice" 900 90 70 "d" = (SubmitResult.mk false none, c3Store) :=
  ⟨by decide, by decide,
    c3_reject_no_mutation c3Store "flick" "Alice" 900 90 70 "d"
      (mkScoreData "Alice" 1000 95 80 "d") (by decide) (by decide)⟩

/-- C4: a completed submission preserves the bound of 50 on the cardinality
of every mode's sorted collection. -/
theorem c4_card_bound (st : Store) (mode name : String) (sc acc eff : Int) (date : String)
    (h : ∀ k : String, (getZ st k).length ≤ 50) :
    ∀ k : String, (getZ (submitScore st mode name sc acc eff date).2 k).length ≤ 50 := by
  intro k
  cases hkv : kvGet st (playerKey mode name) with
  | none =>
    rw [submitScore_no_prior st mode name sc acc eff date hkv]
    exact submitAccept_card_le st mode name sc acc eff date h k
  | some v =>
    cases v with
    | ent d =>
      by_cases hle : eff ≤ d.efficiency
      · rw [submitScore_reject st mode name sc acc eff date d hkv hle]
        exact h k
      · rw [submitScore_supersede st mode name sc acc eff date d hkv (not_le.mp hle)]
        apply submitAccept_card_le
        · intro k'
          by_cases hk' : k' = rankingKey mode
          · subst hk'
            rw [getZ_setZ_self]
            exact le_trans (zrem_sublist _ _).length_le (h _)
          · rw [getZ_setZ_ne _ _ _ _ hk']
            exact h k'
    | noEff s =>
      rw [submitScore_noEff st mode name sc acc eff date s hkv]
      exact submitAccept_card_le st mode name sc acc eff date h k
    | malformed s =>
      rw [submitScore_malformed st mode name sc acc eff date s hkv]
      exact submitAccept_card_le st mode name sc acc eff date h k

/-- C4 witness: a submission on the empty store. -/
theorem c4_card_bound_witness :
    (∀ k : String, (getZ emptyStore k).length ≤ 50)
    ∧ ∀ k : String, (getZ (submitScore emptyStore "flick" "w" 1 1 1 "d").2 k).length ≤ 50 :=
  ⟨fun _ => Nat.zero_le 50,
    c4_card_bound emptyStore "flick" "w" 1 1 1 "d" (fun _ => Nat.zero_le 50)⟩

/-- C5 counterexample: with player `b` already holding efficiency 10,
player `a` submits the tied efficiency 10 and is accepted; the fresh entry
stays in the collection, no entry has strictly greater efficiency, yet the
reported rank is 2, not 1 + 0 = 1 — Redis breaks the score tie by the
lexicographic order of the member strings, which the claim ignores. -/
theorem c5_rank_claim_counterexample :
    c5TieRun.1.updated = true
    ∧ (Member.data (mkScoreData "a" 100 90 10 "d"), 10) ∈ getZ c5TieRun.2 (rankingKey "flick")
    ∧ countStrictGt (getZ c5TieRun.2 (rankingKey "flick")) 10 = 0
    ∧ c5TieRun.1.rank = some 2 := by
  decide

/-- C5 (amended): for an accepted submission on a sorted collection, when
the fresh entry survives the trim the reported rank is 1 plus the number of
entries with strictly greater efficiency plus the number of entries tied at
the submitted efficiency whose member string is lexicographically greater
than the fresh entry's; when the fresh entry is gone at rank-lookup time
the sentinel 51 is reported. -/
theorem c5_rank_formula (st : Store) (mode name : String) (sc acc eff : Int) (date : String)
    (hs : ZSorted (getZ st (rankingKey mode)))
    (hacc : (submitScore st mode name sc acc eff date).1.updated = true) :
    (submitScore st mode name sc acc eff date).1.rank =
      some (if (Member.data (mkScoreData name sc acc eff date), eff)
            ∈ getZ (submitScore st mode name sc acc eff date).2 (rankingKey mode)
        then ((1 + countStrictGt (getZ (submitScore st mode name sc acc eff date).2 (rankingKey mode)) eff
              + countTieLexGt (getZ (submitScore st mode name sc acc eff date).2 (rankingKey mode))
                  (Member.data (mkScoreData name sc acc eff date)) eff : Nat) : Int)
        else 51) := by
  cases hkv : kvGet st (playerKey mode name) with
  | none =>
    rw [submitScore_no_prior st mode name sc acc eff date hkv]
    exact submitAccept_rank_formula st mode name sc acc eff date hs
  | some v =>
    cases v with
    | ent d =>
      by_cases hle : eff ≤ d.efficiency
      · rw [submitScore_reject st mode name sc acc eff date d hkv hle] at hacc
        exact absurd hacc (by simp)
      · rw [submitScore_supersede st mode name sc acc eff date d hkv (not_le.mp hle)]
        apply submitAccept_rank_formula
        rw [getZ_setZ_self]
        exact pairwise_zrem _ hs
    | noEff s =>
      rw [submitScore_noEff st mode name sc acc eff date s hkv]
      exact submitAccept_rank_formula st mode name sc acc eff date hs
    | malformed s =>
      rw [submitScore_malformed st mode name sc acc eff date s hkv]
      exact submitAccept_rank_formula st mode name sc acc eff date hs

/-- C5 witness: a fresh submission on the empty store. -/
theorem c5_rank_formula_witness :
    ZSorted (getZ emptyStore (rankingKey "flick"))
    ∧ (submitScore emptyStore "flick" "a" 100 90 10 "d").1.updated = true
    ∧ (submitScore emptyStore "flick" "a" 100 90 10 "d").1.rank =
        some (if (Member.data (mkScoreData "a" 100 90 10 "d"), 10)
              ∈ getZ (submitScore emptyStore "flick" "a" 100 90 10 "d").2 (rankingKey "flick")
          then ((1 + countStrictGt (getZ (submitScore emptyStore "flick" "a" 100 90 10 "d").2 (rankingKey "flick")) 10
                + countTieLexGt (getZ (submitScore emptyStore "flick" "a" 100 90 10 "d").2 (rankingKey "flick"))
                    (Member.data (mkScoreData "a" 100 90 10 "d")) 10 : Nat) : Int)
          else 51) :=
  ⟨by decide, by decide,
    c5_rank_formula emptyStore "flick" "a" 100 90 10 "d" (by decide) (by decide)⟩

/-- C6: the efficiency of every decoded entry comes from the score half of
its (member, score) pair, even when the member half is structured JSON
carrying its own efficiency field. -/
theorem c6_score_half_authoritative (m : Member) (s : Int) :
    (decodePair (Raw.mem m) (Raw.int s)).efficiency = some s := by
  cases m <;> rfl

/-- C7: on a sorted collection, the entries Fetch returns are in
non-increasing efficiency order: each adjacent pair has defined
efficiencies with the later one at most the earlier one. -/
theorem c7_fetch_sorted (st : Store) (mode : String)
    (hs : ZSorted (getZ st (rankingKey mode))) :
    List.Chain' (fun a b => ∃ x y : Int, a.efficiency = some x ∧ b.efficiency = some y ∧ y ≤ x)
      (fetchRankings st mode) := by
  unfold fetchRankings zrevrangeWS
  rw [parseRankings_pairsToRaw, List.chain'_map]
  have h1 : List.Pairwise (fun a b : Member × Int => a.2 ≤ b.2) (getZ st (rankingKey mode)) := by
    refine hs.imp ?_
    intro a b hab
    rcases hab with h | ⟨h, _⟩
    · exact le_of_lt h
    · exact le_of_eq h
  have h2 : List.Pairwise (fun a b : Member × Int => b.2 ≤ a.2)
      (getZ st (rankingKey mode)).reverse := by
    rw [List.pairwise_reverse]
    exact h1
  have hpw : List.Pairwise (fun a b : Member × Int => b.2 ≤ a.2)
      ((getZ st (rankingKey mode)).reverse.take 50) :=
    h2.sublist (List.take_sublist _ _)
  refine List.Pairwise.chain' (hpw.imp ?_)
  intro a b hle
  exact ⟨a.2, b.2, decodePair_efficiency a.1 a.2, decodePair_efficiency b.1 b.2, hle⟩

/-- C7 witness: a two-entry store built by two submissions. -/
theorem c7_fetch_sorted_witness :
    ZSorted (getZ c7Store (rankingKey "grid"))
    ∧ List.Chain' (fun a b => ∃ x y : Int, a.efficiency = some x ∧ b.efficiency = some y ∧ y ≤ x)
        (fetchRankings c7Store "grid") :=
  ⟨by decide, c7_fetch_sorted c7Store "grid" (by decide)⟩

/-- C8: an odd-length raw reply is decoded exactly as its dropLast — the
trailing unpaired element is discarded — and yields one entry per complete
pair, i.e. floor(length / 2) entries. -/
theorem c8_odd_reply_truncated (l : List Raw) (h : l.length % 2 = 1) :
    parseRankings l = parseRankings l.dropLast
    ∧ (parseRankings l).length = l.length / 2 :=
  ⟨parseRankings_dropLast l h, parseRankings_length l⟩

/-- C8 witness: a three-element reply. -/
theorem c8_odd_reply_truncated_witness :
    c8Raw.length % 2 = 1
    ∧ (parseRankings c8Raw = parseRankings c8Raw.dropLast
       ∧ (parseRankings c8Raw).length = c8Raw.length / 2) :=
  ⟨by decide, c8_odd_reply_truncated c8Raw (by decide)⟩

/-- C9: resetAll reports exactly the ranking keys of the fixed mode set
that existed before the call, leaves the whole string keyspace (hence every
player-best record) untouched, and afterwards exactly the fixed ranking
keys are absent while every other sorted-set key is unchanged. -/
theorem c9_resetAll_exact (st : Store) :
    (resetAll st).1 = (modesList.map rankingKey).filter (fun k => zsetExists st k)
    ∧ (resetAll st).2.kv = st.kv
    ∧ (∀ k : String, zGet? (resetAll st).2 k =
        if k ∈ modesList.map rankingKey then none else zGet? st k) := by
  have hnd : (modesList.map rankingKey).Nodup := by decide
  rcases resetAll_fold modesList [] st hnd with ⟨h1, h2, h3⟩
  exact ⟨by rw [resetAll, h1, List.nil_append], h2, h3⟩

/-- C10: a present but unparsable player-best value, or one without an
efficiency field, is treated as no prior score: the submission goes
straight to the acceptance tail on the unmodified store (no ZREM of a prior
entry is issued), reports `updated = true` regardless of the submitted
efficiency, and the mode's collection becomes the trim of the plain ZADD of
the fresh entry. -/
theorem c10_invalid_prior_fresh (st : Store) (mode name : String) (sc acc eff : Int)
    (date : String) (s : String)
    (h : kvGet st (playerKey mode name) = some (StoredVal.malformed s)
       ∨ kvGet st (playerKey mode name) = some (StoredVal.noEff s)) :
    submitScore st mode name sc acc eff date = submitAccept st mode name sc acc eff date
    ∧ (submitScore st mode name sc acc eff date).1.updated = true
    ∧ getZ (submitScore st mode name sc acc eff date).2 (rankingKey mode) =
        ztrim (zadd (getZ st (rankingKey mode)) eff
          (Member.data (mkScoreData name sc acc eff date))) := by
  have heq : submitScore st mode name sc acc eff date = submitAccept st mode name sc acc eff date := by
    rcases h with h | h
    · exact submitScore_malformed st mode name sc acc eff date s h
    · exact submitScore_noEff st mode name sc acc eff date s h
  refine ⟨heq, ?_, ?_⟩
  · rw [heq]
    exact submitAccept_updated st mode name sc acc eff date
  · rw [heq]
    exact submitAccept_getZ st mode name sc acc eff date

/-- C10 witness: a store whose player-best key holds a non-JSON string. -/
theorem c10_invalid_prior_fresh_witness :
    (kvGet c10Store (playerKey "flick" "Bob") = some (StoredVal.malformed "oops")
     ∨ kvGet c10Store (playerKey "flick" "Bob") = some (StoredVal.noEff "oops"))
    ∧ (submitScore c10Store "flick" "Bob" 10 10 1 "d" = submitAccept c10Store "flick" "Bob" 10 10 1 "d"
       ∧ (submitScore c10Store "flick" "Bob" 10 10 1 "d").1.updated = true
       ∧ getZ (submitScore c10Store "flick" "Bob" 10 10 1 "d").2 (rankingKey "flick") =
           ztrim (zadd (getZ c10Store (rankingKey "flick")) 1
             (Member.data (mkScoreData "Bob" 10 10 1 "d")))) :=
  ⟨by decide, c10_invalid_prior_fresh c10Store "flick" "Bob" 10 10 1 "d" "oops" (by decide)⟩
